import Mathlib

/-!
Shallow embedding of the repository's data-access layer
(`src/data_access_layer.py` of eli-junior/finance_agents).

Conventions of the embedding:
* A timestamp is a natural number of minutes since a fixed epoch midnight
  (day 0 is 1970-01-01, a Thursday, so `weekday 0 = 3` with Monday = 0,
  matching Python's `date.weekday`).
* A calendar date is its day number, i.e. `minutes / 1440`.
* Prices are rationals (the Python floats are only moved, compared with
  `max`/`min`, or copied, never added, so the order embedding is exact);
  volumes are naturals (SQLite column `Volume INTEGER`).
* The cache directory is a list of `.sqlite3` files: each file name either
  parses as a `YYYY-MM-DD` date (`FileName.dated d`) or does not
  (`FileName.invalid`), and each file carries the list of bars stored in
  its `tf_1m` table.
* The provider (`yf.download`) is a function from a day to the list of
  minute bars it returns for that day; an empty list is an empty result.
-/

namespace FinanceDAL

/-- One OHLCV minute (or aggregated) observation, the row schema
`(Datetime, Open, High, Low, Close, Volume)` of the per-day table. -/
structure Bar where
  Datetime : Nat
  Open : ℚ
  High : ℚ
  Low : ℚ
  Close : ℚ
  Volume : Nat
deriving DecidableEq, Repr

/-- Minutes in a calendar day. -/
def minutosPorDia : Nat := 1440

/-- A `.sqlite3` file name in the cache directory: either its base name
parses as a `YYYY-MM-DD` date or it does not (`strptime` raises). -/
inductive FileName where
  | dated (day : Nat)
  | invalid
deriving DecidableEq, Repr

/-- Whether the base name parses as a date. -/
def FileName.isDated : FileName → Bool
  | .dated _ => true
  | .invalid => false

/-- The cache directory: the `.sqlite3` files with their stored bars. -/
abbrev Dir := List (FileName × List Bar)

/-- The dates extracted from the validly named files. -/
def dirDays (dir : Dir) : List Nat :=
  dir.filterMap (fun e => match e.1 with | .dated d => some d | .invalid => none)

/-- Maximum of a list of dates, `none` when empty (Python `max` on an
empty sequence is never reached because of the early `return None`). -/
def maxDate : List Nat → Option Nat
  | [] => none
  | d :: ds => some (ds.foldl max d)

/-- Embeds `_get_ultima_data_db`: scan the directory; if every file name
parses, the latest date, otherwise (one `ValueError` aborts the whole
list comprehension) `None`.  An empty directory also gives `None`. -/
def get_ultima_data_db (dir : Dir) : Option Nat :=
  if dir.all (fun e => e.1.isDated) then maxDate (dirDays dir) else none

/-- Python `date.weekday`: Monday = 0, ..., Sunday = 6. -/
def weekday (d : Nat) : Nat := (d + 3) % 7

/-- Embeds the write path (`_ensure_table_exists` + `to_sql` with
`if_exists='replace'`): replace the day's file contents wholesale,
creating the file if absent. -/
def writeDay : Dir → Nat → List Bar → Dir
  | [], d, bars => [(.dated d, bars)]
  | e :: es, d, bars =>
    if e.1 = .dated d then (.dated d, bars) :: es else e :: writeDay es d bars

/-- The day-by-day download loop of `sincronizar_dados_historicos`:
iterates `fuel` consecutive days starting at `cur`, fetching weekdays
and writing non-empty results.  Returns the new directory together with
the list of days on which the provider was actually called. -/
def syncLoop (provider : Nat → List Bar) : Dir → Nat → Nat → Dir × List Nat
  | dir, _, 0 => (dir, [])
  | dir, cur, fuel + 1 =>
    if weekday cur < 5 then
      let fetched := provider cur
      let dir2 := if fetched = [] then dir else writeDay dir cur fetched
      let r := syncLoop provider dir2 (cur + 1) fuel
      (r.1, cur :: r.2)
    else
      syncLoop provider dir (cur + 1) fuel

/-- The sync start date: day after the cursor, or `today - 6` on a cold
cache (`data_inicial` in the source). -/
def dataInicial (dir : Dir) (today : Nat) : Nat :=
  match get_ultima_data_db dir with
  | none => today - 6
  | some u => u + 1

/-- Embeds `sincronizar_dados_historicos`: compute the start date from
the cursor and walk every day in `[data_inicial, today)`. -/
def sincronizar_dados_historicos (dir : Dir) (provider : Nat → List Bar)
    (today : Nat) : Dir × List Nat :=
  let di := dataInicial dir today
  if today ≤ di then (dir, [])
  else syncLoop provider dir di (today - di)

/-- Contents of the file with a given name, `none` when absent. -/
def getEntry : Dir → FileName → Option (List Bar)
  | [], _ => none
  | e :: es, n => if e.1 = n then some e.2 else getEntry es n

/-! The composer side (`buscar_dados`).  Reading a day's file can find the
file missing, find it unreadable (the `except` branch logs and skips the
day), or succeed with the stored bar list. -/

/-- Outcome of reading one day's store during a range query. -/
inductive DayRead where
  | missing
  | corrupt
  | ok (bars : List Bar)

/-- The calendar dates walked by the read loop, `data_inicio` to
`data_fim` inclusive. -/
def diasNoPeriodo (di df : Nat) : List Nat := List.range' di (df + 1 - di)

/-- Embeds the read loop of `buscar_dados`: each existing, readable day
in the range contributes its table (one dataframe per day, in day
order); missing and unreadable days contribute nothing. -/
def lerDias (store : Nat → DayRead) (di df : Nat) : List (List Bar) :=
  (diasNoPeriodo di df).filterMap (fun d =>
    match store d with
    | .ok bars => some bars
    | _ => none)

/-- Embeds `index.duplicated(keep='first')` removal: keep, in order, the
first occurrence of every timestamp not already in `seen`. -/
def dedupFirst (seen : List Nat) : List Bar → List Bar
  | [] => []
  | b :: bs =>
    if b.Datetime ∈ seen then dedupFirst seen bs
    else b :: dedupFirst (b.Datetime :: seen) bs

/-- Duplicate-timestamp removal as applied in `buscar_dados`. -/
def removeDuplicatas (l : List Bar) : List Bar := dedupFirst [] l

/-- The sort order of `sort_index`: ascending timestamp. -/
def tsLe (a b : Bar) : Prop := a.Datetime ≤ b.Datetime

instance : DecidableRel tsLe := fun a b => Nat.decLe a.Datetime b.Datetime

instance : IsTotal Bar tsLe := ⟨fun a b => Nat.le_total a.Datetime b.Datetime⟩

instance : IsTrans Bar tsLe := ⟨fun _ _ _ h1 h2 => Nat.le_trans h1 h2⟩

/-- Resampling origin used by pandas (`origin='start_day'`, the default
of `DataFrame.resample`): midnight of the first row's day. -/
def originOf : List Bar → Nat
  | [] => 0
  | b :: _ => minutosPorDia * (b.Datetime / minutosPorDia)

/-- Left edge of the width-`w` resampling bucket containing minute `ts`,
for buckets anchored at `origin`. -/
def bucketStart (origin w ts : Nat) : Nat := origin + w * ((ts - origin) / w)

/-- Group a series into maximal runs of consecutive rows sharing a bucket
key; each run is returned as head plus tail, so runs are non-empty by
construction.  On a timestamp-sorted series (the only way `buscar_dados`
uses it) this is exactly the pandas `resample` grouping. -/
def groupRuns (key : Bar → Nat) : List Bar → List (Bar × List Bar)
  | [] => []
  | b :: bs =>
    match groupRuns key bs with
    | [] => [(b, [])]
    | (c, t) :: gs =>
      if key b = key c then (b, c :: t) :: gs else (b, []) :: (c, t) :: gs

/-- Larger of two rationals, spelled out so that it evaluates inside the
kernel; equal to `max` (see `rmax_eq_max`). -/
def rmax (a b : ℚ) : ℚ := if a ≤ b then b else a

/-- Smaller of two rationals; equal to `min` (see `rmin_eq_min`). -/
def rmin (a b : ℚ) : ℚ := if a ≤ b then a else b

/-- The OHLCV aggregation dictionary `regras_resample`: `Open` first,
`High` max, `Low` min, `Close` last, `Volume` sum; the row is labelled
by its bucket's left edge. -/
def aggregate (w origin : Nat) (b : Bar) (t : List Bar) : Bar :=
  { Datetime := bucketStart origin w b.Datetime
    Open := b.Open
    High := (t.map (·.High)).foldl rmax b.High
    Low := (t.map (·.Low)).foldl rmin b.Low
    Close := (t.getLastD b).Close
    Volume := b.Volume + (t.map (·.Volume)).sum }

/-- Embeds `resample(rule).agg(regras_resample)` followed by `dropna()`:
only buckets with contributing rows survive, each aggregated by the
OHLCV rules. -/
def resample (w : Nat) (bars : List Bar) : List Bar :=
  (groupRuns (fun x => bucketStart (originOf bars) w x.Datetime) bars).map
    (fun g => aggregate w (originOf bars) g.1 g.2)

/-- The merged minute series `dados_1m` right before resampling:
concatenate the per-day reads, drop duplicate timestamps keeping the
first occurrence, sort ascending by timestamp. -/
def mergedSeries (store : Nat → DayRead) (di df : Nat) : List Bar :=
  List.insertionSort tsLe (removeDuplicatas (lerDias store di df).flatten)

/-- Embeds `buscar_dados`: empty result when no day in the range could be
read, otherwise the resampled merged series.  `timeframe` is the bucket
width in minutes (`'5min'` is `5`, `'D'` is `1440`). -/
def buscar_dados (store : Nat → DayRead) (timeframe : Nat) (di df : Nat) :
    List Bar :=
  if (lerDias store di df).isEmpty then []
  else resample timeframe (mergedSeries store di df)

/-! Concrete inputs used in the closed instance theorems below. -/

/-- Provider for the retry scenario: day 12 (a Tuesday) has no session
data, every other day has one bar. -/
def pC3 : Nat → List Bar :=
  fun d => if d = 12 then [] else [⟨1440 * d + 600, 1, 1, 1, 1, 1⟩]

/-- A cache directory holding one populated, validly named Day Store and
one file whose name does not parse as a date. -/
def dirC10 : Dir := [(.dated 13, [⟨0, 1, 1, 1, 1, 1⟩]), (.invalid, [])]

/-- Provider returning one bar for every requested day. -/
def pC10 : Nat → List Bar := fun d => [⟨1440 * d + 600, 2, 2, 2, 2, 7⟩]

/-- The five 09:00-09:04 minute bars of the specification's aggregation
example, stored in day 0's Day Store. -/
def exampleStore5 : Nat → DayRead := fun d =>
  if d = 0 then .ok [
    ⟨540, 10, 10.5, 9.8, 10.2, 100⟩, ⟨541, 10.2, 10.3, 10.0, 10.1, 50⟩,
    ⟨542, 10.1, 10.4, 10.1, 10.3, 75⟩, ⟨543, 10.3, 10.6, 10.2, 10.5, 60⟩,
    ⟨544, 10.5, 10.5, 10.3, 10.4, 40⟩]
  else .missing

/-- The specification's expected 5-minute aggregate of `exampleStore5`. -/
def barEx : Bar := ⟨540, 10, 10.6, 9.8, 10.4, 325⟩

/-- Two populated Day Stores, one bar each, on days 0 and 1; used to show
that a 7-minute bucket assignment depends on the queried range. -/
def stC4 : Nat → DayRead := fun d =>
  if d = 0 then .ok [⟨0, 1, 1, 1, 1, 1⟩]
  else if d = 1 then .ok [⟨1440, 1, 1, 1, 1, 1⟩]
  else .missing

/-- Two overlapping Day Stores sharing the timestamp 14400 with different
values: day 10 loads first, day 11 second. -/
def stC2 : Nat → DayRead := fun d =>
  if d = 10 then .ok [⟨14400, 5, 5, 5, 5, 50⟩]
  else if d = 11 then .ok [⟨14400, 7, 7, 7, 7, 70⟩]
  else .missing

/-- A store whose day 1 is unreadable (corrupt) and whose days 0 and 2
are populated. -/
def stC9corrupt : Nat → DayRead := fun d =>
  if d = 0 then .ok [⟨10, 1, 1, 1, 1, 1⟩]
  else if d = 1 then .corrupt
  else if d = 2 then .ok [⟨2890, 2, 2, 2, 2, 2⟩]
  else .missing

/-- Same as `stC9corrupt` but with day 1's file absent instead of
unreadable. -/
def stC9missing : Nat → DayRead := fun d =>
  if d = 0 then .ok [⟨10, 1, 1, 1, 1, 1⟩]
  else if d = 2 then .ok [⟨2890, 2, 2, 2, 2, 2⟩]
  else .missing

/-! Helper lemmas: `rmax` and `rmin` are `max` and `min`. -/

theorem rmax_eq_max (a b : ℚ) : rmax a b = max a b := (max_def a b).symm

theorem rmin_eq_min (a b : ℚ) : rmin a b = min a b := (min_def a b).symm

/-! Helper lemmas: the fold behind `maxDate`. -/

theorem le_foldl_max (l : List Nat) (a : Nat) : a ≤ l.foldl max a := by
  induction l generalizing a with
  | nil => exact Nat.le_refl a
  | cons x xs ih => exact Nat.le_trans (Nat.le_max_left a x) (ih (max a x))

theorem foldl_max_mem (l : List Nat) (a : Nat) :
    l.foldl max a = a ∨ l.foldl max a ∈ l := by
  induction l generalizing a with
  | nil => exact Or.inl rfl
  | cons x xs ih =>
    rcases ih (max a x) with h | h
    · rcases Nat.le_total a x with hax | hxa
      · right; rw [List.foldl_cons, h, Nat.max_eq_right hax]; exact List.mem_cons_self x xs
      · left; rw [List.foldl_cons, h, Nat.max_eq_left hxa]
    · right; exact List.mem_cons_of_mem x h

theorem le_foldl_max_of_mem (l : List Nat) (a x : Nat) (hx : x ∈ l) :
    x ≤ l.foldl max a := by
  induction l generalizing a with
  | nil => cases hx
  | cons y ys ih =>
    rcases List.mem_cons.mp hx with rfl | h
    · exact Nat.le_trans (Nat.le_max_right a x) (le_foldl_max ys (max a x))
    · exact ih (max a y) h

theorem maxDate_mem (l : List Nat) (m : Nat) (h : maxDate l = some m) : m ∈ l := by
  cases l with
  | nil => cases h
  | cons d ds =>
    have hm : ds.foldl max d = m := by simpa [maxDate] using h
    rcases foldl_max_mem ds d with h' | h'
    · rw [← hm, h']; exact List.mem_cons_self d ds
    · rw [← hm]; exact List.mem_cons_of_mem d h'

theorem le_maxDate (l : List Nat) (m x : Nat) (h : maxDate l = some m) (hx : x ∈ l) :
    x ≤ m := by
  cases l with
  | nil => cases hx
  | cons d ds =>
    have hm : ds.foldl max d = m := by simpa [maxDate] using h
    rcases List.mem_cons.mp hx with rfl | h'
    · rw [← hm]; exact le_foldl_max ds x
    · rw [← hm]; exact le_foldl_max_of_mem ds d x h'

theorem maxDate_eq_none (l : List Nat) : maxDate l = none ↔ l = [] := by
  cases l <;> simp [maxDate]

/-! Helper lemmas: `dirDays`, `writeDay` and `getEntry`. -/

theorem dirDays_cons_dated (d : Nat) (bs : List Bar) (es : Dir) :
    dirDays ((FileName.dated d, bs) :: es) = d :: dirDays es := by
  simp [dirDays]

theorem dirDays_cons_invalid (bs : List Bar) (es : Dir) :
    dirDays ((FileName.invalid, bs) :: es) = dirDays es := by
  simp [dirDays]

theorem writeDay_cons_self (d : Nat) (c bs : List Bar) (es : Dir) :
    writeDay ((FileName.dated d, c) :: es) d bs =
      (FileName.dated d, bs) :: es := by
  simp [writeDay]

theorem writeDay_cons_other (e : FileName × List Bar) (d : Nat) (bs : List Bar)
    (es : Dir) (h : e.1 ≠ .dated d) :
    writeDay (e :: es) d bs = e :: writeDay es d bs := by
  simp [writeDay, h]

theorem getEntry_cons_self (e : FileName × List Bar) (es : Dir) :
    getEntry (e :: es) e.1 = some e.2 := by
  simp [getEntry]

theorem getEntry_cons_other (e : FileName × List Bar) (es : Dir) (x : FileName)
    (h : e.1 ≠ x) : getEntry (e :: es) x = getEntry es x := by
  simp [getEntry, h]

theorem getEntry_writeDay_self (dir : Dir) (d : Nat) (bs : List Bar) :
    getEntry (writeDay dir d bs) (.dated d) = some bs := by
  induction dir with
  | nil => simp [writeDay, getEntry]
  | cons e es ih =>
    by_cases h : e.1 = FileName.dated d
    · obtain ⟨n, c⟩ := e
      simp only at h
      subst h
      rw [writeDay_cons_self]
      exact getEntry_cons_self (FileName.dated d, bs) es
    · rw [writeDay_cons_other e d bs es h, getEntry_cons_other e _ _ h, ih]

theorem getEntry_writeDay_other (dir : Dir) (d : Nat) (bs : List Bar)
    (x : FileName) (hx : x ≠ .dated d) :
    getEntry (writeDay dir d bs) x = getEntry dir x := by
  induction dir with
  | nil => simp [writeDay, getEntry, Ne.symm hx]
  | cons e es ih =>
    by_cases h : e.1 = FileName.dated d
    · obtain ⟨n, c⟩ := e
      simp only at h
      subst h
      rw [writeDay_cons_self,
        getEntry_cons_other (FileName.dated d, bs) es x (Ne.symm hx),
        getEntry_cons_other (FileName.dated d, c) es x (Ne.symm hx)]
    · by_cases hex : e.1 = x
      · rw [writeDay_cons_other e d bs es h, ← hex,
          getEntry_cons_self e (writeDay es d bs), getEntry_cons_self e es]
      · rw [writeDay_cons_other e d bs es h, getEntry_cons_other e _ _ hex,
          getEntry_cons_other e _ _ hex, ih]

theorem allDated_writeDay (dir : Dir) (d : Nat) (bs : List Bar) :
    (writeDay dir d bs).all (fun e => e.1.isDated) =
      dir.all (fun e => e.1.isDated) := by
  induction dir with
  | nil => simp [writeDay, FileName.isDated]
  | cons e es ih =>
    by_cases h : e.1 = FileName.dated d
    · obtain ⟨n, c⟩ := e
      simp only at h
      subst h
      rw [writeDay_cons_self]
      simp [FileName.isDated]
    · rw [writeDay_cons_other e d bs es h]
      simp [ih]

theorem mem_dirDays_writeDay (dir : Dir) (d : Nat) (bs : List Bar) (x : Nat) :
    x ∈ dirDays (writeDay dir d bs) ↔ x ∈ dirDays dir ∨ x = d := by
  induction dir with
  | nil => simp [writeDay, dirDays]
  | cons e es ih =>
    obtain ⟨n, c⟩ := e
    cases n with
    | dated d2 =>
      by_cases h : d2 = d
      · subst h
        rw [writeDay_cons_self, dirDays_cons_dated, dirDays_cons_dated]
        simp only [List.mem_cons]
        tauto
      · rw [writeDay_cons_other _ d bs es (by simpa using h),
          dirDays_cons_dated, dirDays_cons_dated]
        simp only [List.mem_cons, ih]
        tauto
    | invalid =>
      rw [writeDay_cons_other _ d bs es (by simp),
        dirDays_cons_invalid, dirDays_cons_invalid, ih]

/-! Helper lemmas: the synchronization loop. -/

theorem syncLoop_succ_skip (p : Nat → List Bar) (dir : Dir) (cur fuel : Nat)
    (hw : ¬weekday cur < 5) :
    syncLoop p dir cur (fuel + 1) = syncLoop p dir (cur + 1) fuel := by
  simp [syncLoop, hw]

theorem syncLoop_succ_empty (p : Nat → List Bar) (dir : Dir) (cur fuel : Nat)
    (hw : weekday cur < 5) (hp : p cur = []) :
    syncLoop p dir cur (fuel + 1) =
      ((syncLoop p dir (cur + 1) fuel).1,
        cur :: (syncLoop p dir (cur + 1) fuel).2) := by
  simp [syncLoop, hw, hp]

theorem syncLoop_succ_write (p : Nat → List Bar) (dir : Dir) (cur fuel : Nat)
    (hw : weekday cur < 5) (hp : p cur ≠ []) :
    syncLoop p dir cur (fuel + 1) =
      ((syncLoop p (writeDay dir cur (p cur)) (cur + 1) fuel).1,
        cur :: (syncLoop p (writeDay dir cur (p cur)) (cur + 1) fuel).2) := by
  simp [syncLoop, hw, hp]

theorem getEntry_syncLoop_dated (p : Nat → List Bar) (dir : Dir)
    (cur fuel d : Nat) :
    getEntry (syncLoop p dir cur fuel).1 (.dated d) =
      if cur ≤ d ∧ d < cur + fuel ∧ weekday d < 5 ∧ p d ≠ [] then some (p d)
      else getEntry dir (.dated d) := by
  induction fuel generalizing dir cur with
  | zero =>
    rw [if_neg]
    · rfl
    · rintro ⟨h1, h2, -⟩; omega
  | succ n ih =>
    by_cases hw : weekday cur < 5
    · by_cases hp : p cur = []
      · rw [syncLoop_succ_empty p dir cur n hw hp, ih]
        split_ifs with hA hB hB
        · rfl
        · exact absurd ⟨by omega, by omega, hA.2.2⟩ hB
        · have hd : d = cur := by
            by_contra hne
            exact hA ⟨by omega, by omega, hB.2.2.1, hB.2.2.2⟩
          subst hd
          exact absurd hp hB.2.2.2
        · rfl
      · rw [syncLoop_succ_write p dir cur n hw hp, ih]
        split_ifs with hA hB hB
        · rfl
        · exact absurd ⟨by omega, by omega, hA.2.2⟩ hB
        · have hd : d = cur := by
            by_contra hne
            exact hA ⟨by omega, by omega, hB.2.2.1, hB.2.2.2⟩
          subst hd
          exact getEntry_writeDay_self dir d (p d)
        · have hd : d ≠ cur := by
            intro h
            exact hB ⟨by omega, by omega, h ▸ hw, h ▸ hp⟩
          exact getEntry_writeDay_other dir cur (p cur) _ (by simpa using hd)
    · rw [syncLoop_succ_skip p dir cur n hw, ih]
      split_ifs with hA hB hB
      · rfl
      · exact absurd ⟨by omega, by omega, hA.2.2⟩ hB
      · have hd : d = cur := by
          by_contra hne
          exact hA ⟨by omega, by omega, hB.2.2.1, hB.2.2.2⟩
        subst hd
        exact absurd hB.2.2.1 hw
      · rfl

theorem getEntry_syncLoop_invalid (p : Nat → List Bar) (dir : Dir)
    (cur fuel : Nat) :
    getEntry (syncLoop p dir cur fuel).1 .invalid = getEntry dir .invalid := by
  induction fuel generalizing dir cur with
  | zero => rfl
  | succ n ih =>
    by_cases hw : weekday cur < 5
    · by_cases hp : p cur = []
      · rw [syncLoop_succ_empty p dir cur n hw hp, ih]
      · rw [syncLoop_succ_write p dir cur n hw hp, ih,
          getEntry_writeDay_other _ _ _ _ (by simp)]
    · rw [syncLoop_succ_skip p dir cur n hw, ih]

theorem mem_log_syncLoop (p : Nat → List Bar) (dir : Dir) (cur fuel d : Nat) :
    d ∈ (syncLoop p dir cur fuel).2 ↔
      cur ≤ d ∧ d < cur + fuel ∧ weekday d < 5 := by
  induction fuel generalizing dir cur with
  | zero =>
    simp only [syncLoop, List.not_mem_nil, false_iff]
    rintro ⟨h1, h2, -⟩; omega
  | succ n ih =>
    by_cases hw : weekday cur < 5
    · have step : (syncLoop p dir cur (n + 1)).2 =
          cur :: (syncLoop p (if p cur = [] then dir
            else writeDay dir cur (p cur)) (cur + 1) n).2 := by
        by_cases hp : p cur = []
        · rw [if_pos hp, syncLoop_succ_empty p dir cur n hw hp]
        · rw [if_neg hp, syncLoop_succ_write p dir cur n hw hp]
      rw [step, List.mem_cons, ih]
      constructor
      · rintro (rfl | ⟨h1, h2, h3⟩)
        · exact ⟨Nat.le_refl d, by omega, hw⟩
        · exact ⟨by omega, by omega, h3⟩
      · rintro ⟨h1, h2, h3⟩
        by_cases hd : d = cur
        · exact Or.inl hd
        · exact Or.inr ⟨by omega, by omega, h3⟩
    · rw [syncLoop_succ_skip p dir cur n hw, ih]
      constructor
      · rintro ⟨h1, h2, h3⟩
        exact ⟨by omega, by omega, h3⟩
      · rintro ⟨h1, h2, h3⟩
        by_cases hd : d = cur
        · subst hd; exact absurd h3 hw
        · exact ⟨by omega, by omega, h3⟩

theorem allDated_syncLoop (p : Nat → List Bar) (dir : Dir) (cur fuel : Nat) :
    (syncLoop p dir cur fuel).1.all (fun e => e.1.isDated) =
      dir.all (fun e => e.1.isDated) := by
  induction fuel generalizing dir cur with
  | zero => rfl
  | succ n ih =>
    by_cases hw : weekday cur < 5
    · by_cases hp : p cur = []
      · rw [syncLoop_succ_empty p dir cur n hw hp, ih]
      · rw [syncLoop_succ_write p dir cur n hw hp, ih, allDated_writeDay]
    · rw [syncLoop_succ_skip p dir cur n hw, ih]

theorem mem_dirDays_syncLoop (p : Nat → List Bar) (dir : Dir)
    (cur fuel x : Nat) :
    x ∈ dirDays (syncLoop p dir cur fuel).1 ↔
      x ∈ dirDays dir ∨
        (cur ≤ x ∧ x < cur + fuel ∧ weekday x < 5 ∧ p x ≠ []) := by
  induction fuel generalizing dir cur with
  | zero =>
    simp only [syncLoop]
    constructor
    · exact Or.inl
    · rintro (h | ⟨h1, h2, -⟩)
      · exact h
      · omega
  | succ n ih =>
    by_cases hw : weekday cur < 5
    · by_cases hp : p cur = []
      · rw [syncLoop_succ_empty p dir cur n hw hp, ih]
        constructor
        · rintro (h | ⟨h1, h2, h3, h4⟩)
          · exact Or.inl h
          · exact Or.inr ⟨by omega, by omega, h3, h4⟩
        · rintro (h | ⟨h1, h2, h3, h4⟩)
          · exact Or.inl h
          · by_cases hx : x = cur
            · subst hx; exact absurd hp h4
            · exact Or.inr ⟨by omega, by omega, h3, h4⟩
      · rw [syncLoop_succ_write p dir cur n hw hp, ih, mem_dirDays_writeDay]
        constructor
        · rintro ((h | rfl) | ⟨h1, h2, h3, h4⟩)
          · exact Or.inl h
          · exact Or.inr ⟨Nat.le_refl x, by omega, hw, hp⟩
          · exact Or.inr ⟨by omega, by omega, h3, h4⟩
        · rintro (h | ⟨h1, h2, h3, h4⟩)
          · exact Or.inl (Or.inl h)
          · by_cases hx : x = cur
            · exact Or.inl (Or.inr hx)
            · exact Or.inr ⟨by omega, by omega, h3, h4⟩
    · rw [syncLoop_succ_skip p dir cur n hw, ih]
      constructor
      · rintro (h | ⟨h1, h2, h3, h4⟩)
        · exact Or.inl h
        · exact Or.inr ⟨by omega, by omega, h3, h4⟩
      · rintro (h | ⟨h1, h2, h3, h4⟩)
        · exact Or.inl h
        · by_cases hx : x = cur
          · subst hx; exact absurd h3 hw
          · exact Or.inr ⟨by omega, by omega, h3, h4⟩

/-! Helper lemmas: `sincronizar_dados_historicos` as a whole. -/

theorem getEntry_sinc_dated (dir : Dir) (p : Nat → List Bar) (today d : Nat) :
    getEntry (sincronizar_dados_historicos dir p today).1 (.dated d) =
      if dataInicial dir today ≤ d ∧ d < today ∧ weekday d < 5 ∧ p d ≠ []
      then some (p d) else getEntry dir (.dated d) := by
  simp only [sincronizar_dados_historicos]
  by_cases h : today ≤ dataInicial dir today
  · rw [if_pos h, if_neg]
    rintro ⟨h1, h2, -⟩; omega
  · rw [if_neg h, getEntry_syncLoop_dated]
    have harith : dataInicial dir today + (today - dataInicial dir today) =
        today := by omega
    rw [harith]

theorem getEntry_sinc_invalid (dir : Dir) (p : Nat → List Bar) (today : Nat) :
    getEntry (sincronizar_dados_historicos dir p today).1 .invalid =
      getEntry dir .invalid := by
  simp only [sincronizar_dados_historicos]
  by_cases h : today ≤ dataInicial dir today
  · rw [if_pos h]
  · rw [if_neg h, getEntry_syncLoop_invalid]

theorem mem_log_sinc (dir : Dir) (p : Nat → List Bar) (today d : Nat) :
    d ∈ (sincronizar_dados_historicos dir p today).2 ↔
      dataInicial dir today ≤ d ∧ d < today ∧ weekday d < 5 := by
  simp only [sincronizar_dados_historicos]
  by_cases h : today ≤ dataInicial dir today
  · rw [if_pos h]
    simp only [List.not_mem_nil, false_iff]
    rintro ⟨h1, h2, -⟩; omega
  · rw [if_neg h, mem_log_syncLoop]
    have harith : dataInicial dir today + (today - dataInicial dir today) =
        today := by omega
    rw [harith]

theorem allDated_sinc (dir : Dir) (p : Nat → List Bar) (today : Nat) :
    (sincronizar_dados_historicos dir p today).1.all (fun e => e.1.isDated) =
      dir.all (fun e => e.1.isDated) := by
  simp only [sincronizar_dados_historicos]
  by_cases h : today ≤ dataInicial dir today
  · rw [if_pos h]
  · rw [if_neg h, allDated_syncLoop]

theorem mem_dirDays_sinc (dir : Dir) (p : Nat → List Bar) (today x : Nat) :
    x ∈ dirDays (sincronizar_dados_historicos dir p today).1 ↔
      x ∈ dirDays dir ∨
        (dataInicial dir today ≤ x ∧ x < today ∧ weekday x < 5 ∧ p x ≠ []) := by
  simp only [sincronizar_dados_historicos]
  by_cases h : today ≤ dataInicial dir today
  · rw [if_pos h]
    constructor
    · exact Or.inl
    · rintro (hx | ⟨h1, h2, -⟩)
      · exact hx
      · omega
  · rw [if_neg h, mem_dirDays_syncLoop]
    have harith : dataInicial dir today + (today - dataInicial dir today) =
        today := by omega
    rw [harith]

theorem dataInicial_le_sinc (dir : Dir) (p : Nat → List Bar) (today : Nat) :
    dataInicial dir today ≤
      dataInicial (sincronizar_dados_historicos dir p today).1 today := by
  by_cases hAll : dir.all (fun e => e.1.isDated) = true
  · have hAll2 : (sincronizar_dados_historicos dir p today).1.all
        (fun e => e.1.isDated) = true := by
      rw [allDated_sinc, hAll]
    cases hu : maxDate (dirDays dir) with
    | none =>
      have h1 : dataInicial dir today = today - 6 := by
        simp [dataInicial, get_ultima_data_db, hAll, hu]
      cases hv : maxDate (dirDays (sincronizar_dados_historicos dir p today).1)
          with
      | none =>
        have h2 : dataInicial (sincronizar_dados_historicos dir p today).1
            today = today - 6 := by
          simp [dataInicial, get_ultima_data_db, hAll2, hv]
        omega
      | some v =>
        have h2 : dataInicial (sincronizar_dados_historicos dir p today).1
            today = v + 1 := by
          simp [dataInicial, get_ultima_data_db, hAll2, hv]
        have hvmem := maxDate_mem _ v hv
        rcases (mem_dirDays_sinc dir p today v).mp hvmem with hin | ⟨h3, -⟩
        · rw [(maxDate_eq_none _).mp hu] at hin
          cases hin
        · omega
    | some u =>
      have h1 : dataInicial dir today = u + 1 := by
        simp [dataInicial, get_ultima_data_db, hAll, hu]
      have humem : u ∈ dirDays (sincronizar_dados_historicos dir p today).1 :=
        (mem_dirDays_sinc dir p today u).mpr (Or.inl (maxDate_mem _ u hu))
      cases hv : maxDate (dirDays (sincronizar_dados_historicos dir p today).1)
          with
      | none =>
        rw [(maxDate_eq_none _).mp hv] at humem
        cases humem
      | some v =>
        have h2 : dataInicial (sincronizar_dados_historicos dir p today).1
            today = v + 1 := by
          simp [dataInicial, get_ultima_data_db, hAll2, hv]
        have := le_maxDate _ v u hv humem
        omega
  · have hAllF : dir.all (fun e => e.1.isDated) = false := by
      simpa using hAll
    have hAll2 : (sincronizar_dados_historicos dir p today).1.all
        (fun e => e.1.isDated) = false := by
      rw [allDated_sinc, hAllF]
    have h1 : dataInicial dir today = today - 6 := by
      simp [dataInicial, get_ultima_data_db, hAllF]
    have h2 : dataInicial (sincronizar_dados_historicos dir p today).1 today =
        today - 6 := by
      simp [dataInicial, get_ultima_data_db, hAll2]
    omega

/-! Claim theorems about the synchronizer. -/

/-- C5: calling `sincronizar_dados_historicos` twice in succession with
the same `today` and the same deterministic, error-free provider leaves
every file of the cache directory with the same contents after the
second call as after the first (the second call is a no-op or rewrites
identical data), hence the same set of populated Day Stores. -/
theorem sincronizacao_idempotente (dir : Dir) (p : Nat → List Bar)
    (today : Nat) (x : FileName) :
    getEntry (sincronizar_dados_historicos
        (sincronizar_dados_historicos dir p today).1 p today).1 x =
      getEntry (sincronizar_dados_historicos dir p today).1 x := by
  cases x with
  | invalid => rw [getEntry_sinc_invalid]
  | dated d =>
    rw [getEntry_sinc_dated]
    by_cases hc : dataInicial (sincronizar_dados_historicos dir p today).1
        today ≤ d ∧ d < today ∧ weekday d < 5 ∧ p d ≠ []
    · rw [if_pos hc, getEntry_sinc_dated, if_pos
        ⟨Nat.le_trans (dataInicial_le_sinc dir p today) hc.1, hc.2⟩]
    · rw [if_neg hc]

/-- C6: a sync run with `today = D` never creates (or touches) a Day
Store for date `D` itself, and every provider call it makes is for a
date strictly before `D` (the iteration bound is exclusive). -/
theorem exclusao_de_hoje (dir : Dir) (p : Nat → List Bar) (today : Nat) :
    (∀ d ∈ (sincronizar_dados_historicos dir p today).2, d < today) ∧
      getEntry (sincronizar_dados_historicos dir p today).1 (.dated today) =
        getEntry dir (.dated today) := by
  constructor
  · intro d hd
    exact ((mem_log_sinc dir p today d).mp hd).2.1
  · rw [getEntry_sinc_dated, if_neg]
    rintro ⟨-, h, -⟩
    omega

/-- C6 instance: with an empty cache, provider `pC3` and `today = 18`,
day 12 is fetched and `12 < 18`, while date 18 itself gets no store. -/
theorem exclusao_de_hoje_aplicacao :
    12 < 18 ∧
      getEntry (sincronizar_dados_historicos [] pC3 18).1 (.dated 18) =
        getEntry ([] : Dir) (.dated 18) :=
  ⟨(exclusao_de_hoje [] pC3 18).1 12 (by decide), (exclusao_de_hoje [] pC3 18).2⟩

/-- C7: no provider fetch is ever issued for a Saturday or Sunday date:
every day in the fetch log is a weekday, for any cache state, provider
and `today`. -/
theorem somente_dias_uteis (dir : Dir) (p : Nat → List Bar) (today : Nat) :
    ∀ d ∈ (sincronizar_dados_historicos dir p today).2, weekday d < 5 :=
  fun d hd => ((mem_log_sinc dir p today d).mp hd).2.2

/-- C7 instance: day 13 is in the fetch log of a bootstrap sync and is a
weekday. -/
theorem somente_dias_uteis_aplicacao : weekday 13 < 5 :=
  somente_dias_uteis [] pC3 18 13 (by decide)

/-- C3, counterexample: with an empty cache and provider `pC3` (empty
for day 12, non-empty for later days), the sync at `today = 18` fetches
day 12, gets an empty result and creates no store for it; yet the next
sync (`today = 19`) does not attempt day 12 again — the populated later
stores moved the cursor past it, refuting "retried on every future sync
regardless of which later days have populated Day Stores". -/
theorem retentativa_apos_sync_contraexemplo :
    pC3 12 = [] ∧
      12 ∈ (sincronizar_dados_historicos [] pC3 18).2 ∧
      getEntry (sincronizar_dados_historicos [] pC3 18).1 (.dated 12) = none ∧
      12 ∉ (sincronizar_dados_historicos
          (sincronizar_dados_historicos [] pC3 18).1 pC3 19).2 :=
  ⟨rfl, by decide, by decide, by decide⟩

/-- C3, amended: a day `d` (in particular one whose earlier fetch came
back empty) is attempted by a sync exactly when it is a weekday lying in
the window `[dataInicial, today)` derived from the cache: so it keeps
being retried only while no Day Store exists for any date `≥ d`, and is
skipped forever once a later day's store moves the cursor past it. -/
theorem dias_sincronizados_caracterizacao (dir : Dir) (p : Nat → List Bar)
    (today d : Nat) :
    d ∈ (sincronizar_dados_historicos dir p today).2 ↔
      dataInicial dir today ≤ d ∧ d < today ∧ weekday d < 5 :=
  mem_log_sinc dir p today d

/-- C10: one `.sqlite3` file whose base name does not parse as a date
makes the derived cursor `None` even when validly named Day Stores
exist; the next sync then bootstraps from `today - 6` and re-fetches
(wholesale-rewriting) every weekday in that window for which the
provider has data, populated stores included. -/
theorem arquivo_invalido_reseta_cursor (dir : Dir) (p : Nat → List Bar)
    (today : Nat) (h : dir.all (fun e => e.1.isDated) = false) :
    get_ultima_data_db dir = none ∧
      dataInicial dir today = today - 6 ∧
      ∀ d, getEntry (sincronizar_dados_historicos dir p today).1 (.dated d) =
        if today - 6 ≤ d ∧ d < today ∧ weekday d < 5 ∧ p d ≠ []
        then some (p d) else getEntry dir (.dated d) := by
  have h1 : get_ultima_data_db dir = none := by
    simp [get_ultima_data_db, h]
  have h2 : dataInicial dir today = today - 6 := by
    simp [dataInicial, h1]
  refine ⟨h1, h2, fun d => ?_⟩
  rw [getEntry_sinc_dated, h2]

/-- C10 instance: `dirC10` holds a populated store for day 13 and an
invalidly named file; the cursor is `None` and the sync at `today = 18`
rewrites day 13's store with the freshly fetched data. -/
theorem arquivo_invalido_reseta_cursor_aplicacao :
    get_ultima_data_db dirC10 = none ∧
      getEntry (sincronizar_dados_historicos dirC10 pC10 18).1 (.dated 13) =
        some (pC10 13) := by
  obtain ⟨h1, h2, h3⟩ :=
    arquivo_invalido_reseta_cursor dirC10 pC10 18 (by decide)
  refine ⟨h1, ?_⟩
  rw [h3 13, if_pos ⟨by decide, by decide, by decide, by decide⟩]

/-! Helper lemmas: duplicate removal. -/

theorem filter_dedupFirst (l : List Bar) (seen : List Nat) (ts : Nat) :
    (dedupFirst seen l).filter (fun b => b.Datetime == ts) =
      if ts ∈ seen then []
      else (l.filter (fun b => b.Datetime == ts)).take 1 := by
  induction l generalizing seen with
  | nil => simp [dedupFirst]
  | cons b bs ih =>
    by_cases hb : b.Datetime ∈ seen
    · rw [show dedupFirst seen (b :: bs) = dedupFirst seen bs by
        simp [dedupFirst, hb], ih]
      by_cases hts : ts ∈ seen
      · rw [if_pos hts, if_pos hts]
      · have hne : (b.Datetime == ts) = false := by
          simp only [beq_eq_false_iff_ne, ne_eq]
          intro he
          exact hts (he ▸ hb)
        rw [if_neg hts, if_neg hts, List.filter_cons, hne]
        simp
    · rw [show dedupFirst seen (b :: bs) =
          b :: dedupFirst (b.Datetime :: seen) bs by simp [dedupFirst, hb]]
      by_cases hbt : b.Datetime = ts
      · subst hbt
        have hts : b.Datetime ∉ seen := hb
        rw [if_neg hts, List.filter_cons, List.filter_cons]
        simp only [beq_self_eq_true, if_pos]
        rw [ih]
        simp [List.mem_cons]
      · have hne : (b.Datetime == ts) = false := by
          simp [beq_eq_false_iff_ne, hbt]
        rw [List.filter_cons, hne]
        simp only [Bool.false_eq_true, ite_false]
        rw [ih, List.filter_cons, hne]
        simp only [Bool.false_eq_true, ite_false]
        by_cases hts : ts ∈ seen
        · rw [if_pos (List.mem_cons_of_mem _ hts), if_pos hts]
        · rw [if_neg ?hnot, if_neg hts]
          case hnot =>
            intro hmem
            rcases List.mem_cons.mp hmem with heq | hmem2
            · exact hbt heq.symm
            · exact hts hmem2

theorem nodup_dedupFirst (l : List Bar) (seen : List Nat) :
    ((dedupFirst seen l).map (·.Datetime)).Nodup ∧
      ∀ b ∈ dedupFirst seen l, b.Datetime ∉ seen := by
  induction l generalizing seen with
  | nil => simp [dedupFirst]
  | cons b bs ih =>
    by_cases hb : b.Datetime ∈ seen
    · rw [show dedupFirst seen (b :: bs) = dedupFirst seen bs by
        simp [dedupFirst, hb]]
      exact ih seen
    · rw [show dedupFirst seen (b :: bs) =
          b :: dedupFirst (b.Datetime :: seen) bs by simp [dedupFirst, hb]]
      obtain ⟨ihn, ihs⟩ := ih (b.Datetime :: seen)
      refine ⟨?_, ?_⟩
      · simp only [List.map_cons, List.nodup_cons]
        refine ⟨?_, ihn⟩
        intro hmem
        rcases List.mem_map.mp hmem with ⟨x, hx, hxe⟩
        exact (ihs x hx) (by rw [hxe]; exact List.mem_cons_self _ _)
      · intro x hx
        rcases List.mem_cons.mp hx with rfl | hx2
        · exact hb
        · intro hxs
          exact (ihs x hx2) (List.mem_cons_of_mem _ hxs)

/-! Helper lemmas: the merged series is sorted with unique timestamps. -/

theorem mergedSeries_sorted (store : Nat → DayRead) (di df : Nat) :
    List.Sorted tsLe (mergedSeries store di df) :=
  List.sorted_insertionSort tsLe _

theorem mergedSeries_nodup (store : Nat → DayRead) (di df : Nat) :
    ((mergedSeries store di df).map (·.Datetime)).Nodup := by
  have hperm : List.Perm ((mergedSeries store di df).map (·.Datetime))
      ((removeDuplicatas (lerDias store di df).flatten).map (·.Datetime)) :=
    (List.perm_insertionSort tsLe _).map _
  rw [hperm.nodup_iff]
  exact (nodup_dedupFirst _ []).1

/-! Helper lemmas: run grouping. -/

theorem groupRuns_eq_nil_iff (key : Bar → Nat) (l : List Bar) :
    groupRuns key l = [] ↔ l = [] := by
  cases l with
  | nil => simp [groupRuns]
  | cons b bs =>
    simp only [groupRuns]
    cases h : groupRuns key bs with
    | nil => simp
    | cons g gs =>
      obtain ⟨c, t⟩ := g
      by_cases hk : key b = key c <;> simp [hk]

theorem groupRuns_flatten (key : Bar → Nat) (l : List Bar) :
    ((groupRuns key l).map (fun g => g.1 :: g.2)).flatten = l := by
  induction l with
  | nil => rfl
  | cons b bs ih =>
    cases h : groupRuns key bs with
    | nil =>
      rw [(groupRuns_eq_nil_iff key bs).mp h]
      simp [groupRuns]
    | cons g gs =>
      obtain ⟨c, t⟩ := g
      rw [h] at ih
      simp only [groupRuns, h]
      by_cases hk : key b = key c
      · rw [if_pos hk]
        simpa using ih
      · rw [if_neg hk]
        simpa using ih

theorem key_eq_of_mem_groupRuns (key : Bar → Nat) (l : List Bar) :
    ∀ g ∈ groupRuns key l, ∀ x ∈ g.2, key x = key g.1 := by
  induction l with
  | nil => intro g hg; cases hg
  | cons b bs ih =>
    intro g hg x hx
    cases h : groupRuns key bs with
    | nil =>
      simp only [groupRuns, h] at hg
      rcases List.mem_cons.mp hg with rfl | hg2
      · cases hx
      · cases hg2
    | cons g2 gs =>
      obtain ⟨c, t⟩ := g2
      simp only [groupRuns, h] at hg
      have hmem1 : (c, t) ∈ groupRuns key bs := by
        rw [h]; exact List.mem_cons_self _ _
      by_cases hk : key b = key c
      · rw [if_pos hk] at hg
        rcases List.mem_cons.mp hg with rfl | hg2
        · rcases List.mem_cons.mp hx with rfl | hx2
          · exact hk.symm
          · have := ih (c, t) hmem1 x hx2
            simpa [hk] using this
        · refine ih g ?_ x hx
          rw [h]; exact List.mem_cons_of_mem _ hg2
      · rw [if_neg hk] at hg
        rcases List.mem_cons.mp hg with rfl | hg2
        · cases hx
        · refine ih g ?_ x hx
          rw [h]; exact hg2

theorem head_mem_of_groupRuns (key : Bar → Nat) (l : List Bar)
    (c : Bar) (t : List Bar) (gs : List (Bar × List Bar))
    (h : groupRuns key l = (c, t) :: gs) : l = (c :: t) ++
      ((gs.map (fun g => g.1 :: g.2)).flatten) := by
  have := groupRuns_flatten key l
  rw [h] at this
  simpa using this.symm

theorem groupRuns_pairwise_heads (key : Bar → Nat) (l : List Bar)
    (h : l.Pairwise (fun a b => key a ≤ key b)) :
    (groupRuns key l).Pairwise (fun g g2 => key g.1 < key g2.1) := by
  induction l with
  | nil => exact List.Pairwise.nil
  | cons b bs ih =>
    rcases List.pairwise_cons.mp h with ⟨hb, hbs⟩
    have IH := ih hbs
    cases hg : groupRuns key bs with
    | nil => simp [groupRuns, hg]
    | cons g gs =>
      obtain ⟨c, t⟩ := g
      rw [hg] at IH
      simp only [groupRuns, hg]
      rcases List.pairwise_cons.mp IH with ⟨hcg, hgs⟩
      have hcmem : c ∈ bs := by
        rw [head_mem_of_groupRuns key bs c t gs hg]
        exact List.mem_append_left _ (List.mem_cons_self _ _)
      have hbc : key b ≤ key c := hb c hcmem
      by_cases hk : key b = key c
      · rw [if_pos hk]
        refine List.pairwise_cons.mpr ⟨?_, hgs⟩
        intro g2 hg2
        exact hk ▸ hcg g2 hg2
      · rw [if_neg hk]
        refine List.pairwise_cons.mpr ⟨?_, IH⟩
        intro g2 hg2
        rcases List.mem_cons.mp hg2 with rfl | hg3
        · exact Nat.lt_of_le_of_ne hbc hk
        · exact Nat.lt_trans (Nat.lt_of_le_of_ne hbc hk) (hcg g2 hg3)

theorem groupRuns_filter (key : Bar → Nat) (l : List Bar)
    (h : l.Pairwise (fun a b => key a ≤ key b)) :
    ∀ g ∈ groupRuns key l,
      l.filter (fun x => key x == key g.1) = g.1 :: g.2 := by
  induction l with
  | nil => intro g hg; cases hg
  | cons b bs ih =>
    rcases List.pairwise_cons.mp h with ⟨hb, hbs⟩
    intro g hg
    cases hgr : groupRuns key bs with
    | nil =>
      simp only [groupRuns, hgr] at hg
      rcases List.mem_cons.mp hg with rfl | hg2
      · rw [(groupRuns_eq_nil_iff key bs).mp hgr]
        simp
      · cases hg2
    | cons g2 gs =>
      obtain ⟨c, t⟩ := g2
      simp only [groupRuns, hgr] at hg
      have hdecomp := head_mem_of_groupRuns key bs c t gs hgr
      have hcmem : c ∈ bs := by
        rw [hdecomp]; exact List.mem_append_left _ (List.mem_cons_self _ _)
      have hbc : key b ≤ key c := hb c hcmem
      have hkt : ∀ x ∈ t, key x = key c := by
        intro x hx
        exact key_eq_of_mem_groupRuns key bs (c, t)
          (by rw [hgr]; exact List.mem_cons_self _ _) x hx
      have hph := groupRuns_pairwise_heads key bs hbs
      rw [hgr] at hph
      rcases List.pairwise_cons.mp hph with ⟨hcg, -⟩
      have hrest : ∀ x ∈ (gs.map (fun g => g.1 :: g.2)).flatten,
          key c < key x := by
        intro x hx
        rcases List.mem_flatten.mp hx with ⟨run, hrun, hxr⟩
        rcases List.mem_map.mp hrun with ⟨g3, hg3, rfl⟩
        rcases List.mem_cons.mp hxr with rfl | hx2
        · exact hcg g3 hg3
        · rw [key_eq_of_mem_groupRuns key bs g3
            (by rw [hgr]; exact List.mem_cons_of_mem _ hg3) x hx2]
          exact hcg g3 hg3
      by_cases hk : key b = key c
      · rw [if_pos hk] at hg
        rcases List.mem_cons.mp hg with rfl | hg2
        · simp only
          rw [List.filter_cons, if_pos (by simp)]
          congr 1
          rw [hdecomp, List.filter_append]
          have h1 : List.filter (fun x => key x == key b) (c :: t) =
              c :: t := by
            apply List.filter_eq_self.mpr
            intro x hx
            rcases List.mem_cons.mp hx with rfl | hx2
            · simp [hk]
            · simp [hkt x hx2, hk]
          have h2 : List.filter (fun x => key x == key b)
              ((gs.map (fun g => g.1 :: g.2)).flatten) = [] := by
            apply List.filter_eq_nil_iff.mpr
            intro x hx
            have := hrest x hx
            simp only [beq_iff_eq]
            omega
          rw [h1, h2, List.append_nil]
        · have hih := ih hbs g (by rw [hgr]; exact List.mem_cons_of_mem _ hg2)
          rw [List.filter_cons, if_neg ?hbne, hih]
          case hbne =>
            have : key c < key g.1 := hcg g hg2
            simp only [beq_iff_eq]
            omega
      · rw [if_neg hk] at hg
        have hblt : key b < key c := Nat.lt_of_le_of_ne hbc hk
        rcases List.mem_cons.mp hg with rfl | hg2
        · simp only
          rw [List.filter_cons, if_pos (by simp)]
          congr 1
          apply List.filter_eq_nil_iff.mpr
          intro x hx
          rw [hdecomp] at hx
          rcases List.mem_append.mp hx with hx1 | hx2
          · rcases List.mem_cons.mp hx1 with rfl | hx3
            · simp only [beq_iff_eq]; omega
            · rw [hkt x hx3]; simp only [beq_iff_eq]; omega
          · have := hrest x hx2
            simp only [beq_iff_eq]
            omega
        · have hih := ih hbs g (by rw [hgr]; exact hg2)
          rw [List.filter_cons, if_neg ?hbne2, hih]
          case hbne2 =>
            have hcle : key c ≤ key g.1 := by
              rcases List.mem_cons.mp hg2 with rfl | hg3
              · exact Nat.le_refl _
              · exact Nat.le_of_lt (hcg g hg3)
            simp only [beq_iff_eq]
            omega

/-! Helper lemmas: bucket assignment and resampling. -/

theorem bucketStart_mono (origin w ts1 ts2 : Nat) (h : ts1 ≤ ts2) :
    bucketStart origin w ts1 ≤ bucketStart origin w ts2 := by
  unfold bucketStart
  exact Nat.add_le_add_left
    (Nat.mul_le_mul_left w
      (Nat.div_le_div_right (Nat.sub_le_sub_right h origin))) origin

theorem bucketStart_le_self (origin w ts : Nat) (h : origin ≤ ts) :
    bucketStart origin w ts ≤ ts := by
  unfold bucketStart
  have h1 : w * ((ts - origin) / w) ≤ ts - origin := Nat.mul_div_le _ w
  omega

theorem bucketStart_one (origin ts : Nat) (h : origin ≤ ts) :
    bucketStart origin 1 ts = ts := by
  unfold bucketStart
  simp [Nat.div_one, Nat.one_mul]
  omega

theorem bucketStart_of_dvd (origin w ts : Nat) (hw : 0 < w)
    (hdvd : w ∣ origin) (hle : origin ≤ ts) :
    bucketStart origin w ts = w * (ts / w) := by
  obtain ⟨m, rfl⟩ := hdvd
  unfold bucketStart
  have hts : ts = w * m + (ts - w * m) := (Nat.add_sub_cancel' hle).symm
  conv_rhs => rw [hts, Nat.mul_add_div hw, Nat.mul_add]

theorem pairwise_key_of_sorted (s : List Bar) (origin w : Nat)
    (hs : List.Sorted tsLe s) :
    s.Pairwise (fun a b => bucketStart origin w a.Datetime ≤
      bucketStart origin w b.Datetime) :=
  hs.imp (fun h => bucketStart_mono origin w _ _ h)

theorem foldl_rmax_eq (l : List ℚ) (a : ℚ) :
    l.foldl rmax a = l.foldl max a := by
  induction l generalizing a with
  | nil => rfl
  | cons x xs ih => rw [List.foldl_cons, List.foldl_cons, rmax_eq_max, ih]

theorem foldl_rmin_eq (l : List ℚ) (a : ℚ) :
    l.foldl rmin a = l.foldl min a := by
  induction l generalizing a with
  | nil => rfl
  | cons x xs ih => rw [List.foldl_cons, List.foldl_cons, rmin_eq_min, ih]

theorem mem_resample (w : Nat) (s : List Bar) (hs : List.Sorted tsLe s)
    (o : Bar) (ho : o ∈ resample w s) :
    ∃ hd tl,
      s.filter (fun x => bucketStart (originOf s) w x.Datetime ==
        o.Datetime) = hd :: tl ∧
      o = aggregate w (originOf s) hd tl := by
  unfold resample at ho
  rcases List.mem_map.mp ho with ⟨g, hg, rfl⟩
  refine ⟨g.1, g.2, ?_, rfl⟩
  have hkey : bucketStart (originOf s) w
      (aggregate w (originOf s) g.1 g.2).Datetime =
        bucketStart (originOf s) w (bucketStart (originOf s) w
          g.1.Datetime) := rfl
  have hfix : (aggregate w (originOf s) g.1 g.2).Datetime =
      bucketStart (originOf s) w g.1.Datetime := rfl
  rw [hfix]
  exact groupRuns_filter _ s
    (pairwise_key_of_sorted s (originOf s) w hs) g hg

theorem groupRuns_of_pairwise_ne (key : Bar → Nat) (l : List Bar)
    (h : l.Pairwise (fun a b => key a ≠ key b)) :
    groupRuns key l = l.map (fun b => (b, [])) := by
  induction l with
  | nil => rfl
  | cons b bs ih =>
    rcases List.pairwise_cons.mp h with ⟨hb, hbs⟩
    cases hg : groupRuns key bs with
    | nil =>
      rw [(groupRuns_eq_nil_iff key bs).mp hg]
      simp [groupRuns]
    | cons g gs =>
      obtain ⟨c, t⟩ := g
      have hcmem : c ∈ bs := by
        rw [head_mem_of_groupRuns key bs c t gs hg]
        exact List.mem_append_left _ (List.mem_cons_self _ _)
      simp only [groupRuns, hg, if_neg (hb c hcmem)]
      rw [← hg, ih hbs]
      simp

theorem resample_one (s : List Bar) (hs : List.Sorted tsLe s)
    (hnd : (s.map (·.Datetime)).Nodup) : resample 1 s = s := by
  cases s with
  | nil => rfl
  | cons hd rest =>
    have horig : ∀ x ∈ hd :: rest, originOf (hd :: rest) ≤ x.Datetime := by
      intro x hx
      have h0 : originOf (hd :: rest) ≤ hd.Datetime := by
        simp only [originOf]
        exact Nat.mul_div_le hd.Datetime minutosPorDia
      rcases List.mem_cons.mp hx with rfl | hx2
      · exact h0
      · exact Nat.le_trans h0 (List.rel_of_sorted_cons hs x hx2)
    have hkey : ∀ x ∈ hd :: rest,
        bucketStart (originOf (hd :: rest)) 1 x.Datetime = x.Datetime :=
      fun x hx => bucketStart_one _ _ (horig x hx)
    have hne : (hd :: rest).Pairwise (fun a b =>
        bucketStart (originOf (hd :: rest)) 1 a.Datetime ≠
          bucketStart (originOf (hd :: rest)) 1 b.Datetime) := by
      have hraw : (hd :: rest).Pairwise
          (fun a b => a.Datetime ≠ b.Datetime) :=
        (List.pairwise_map.mp hnd)
      refine hraw.imp_of_mem ?_
      intro a b ha hb hab
      rw [hkey a ha, hkey b hb]
      exact hab
    unfold resample
    rw [groupRuns_of_pairwise_ne _ _ hne, List.map_map]
    have : ∀ b ∈ hd :: rest,
        ((fun g : Bar × List Bar =>
          aggregate 1 (originOf (hd :: rest)) g.1 g.2) ∘
            fun b => (b, [])) b = id b := by
      intro b hb
      simp only [Function.comp, id]
      unfold aggregate
      rw [hkey b hb]
      cases b
      simp
    rw [List.map_congr_left this, List.map_id]

/-! Claim theorems about the composer. -/

/-- C1: every bucket emitted by `buscar_dados` is non-empty and
aggregates its contributing minute bars by the OHLCV rules — `Open` is
the first contributing bar's open, `High` the maximum of highs, `Low`
the minimum of lows, `Close` the last bar's close, `Volume` the sum of
volumes — and, concretely, the specification's five 09:00-09:04 bars
resampled at 5 minutes yield exactly one bucket with open 10, high 10.6,
low 9.8, close 10.4 and volume 325. -/
theorem composicao_ohlcv :
    (∀ (store : Nat → DayRead) (w di df : Nat),
      ∀ o ∈ buscar_dados store w di df,
      ∃ hd tl,
        (mergedSeries store di df).filter
          (fun x => bucketStart (originOf (mergedSeries store di df)) w
            x.Datetime == o.Datetime) = hd :: tl ∧
        o.Open = hd.Open ∧
        o.High = (tl.map (·.High)).foldl max hd.High ∧
        o.Low = (tl.map (·.Low)).foldl min hd.Low ∧
        o.Close = (tl.getLastD hd).Close ∧
        o.Volume = ((hd :: tl).map (·.Volume)).sum) ∧
      buscar_dados exampleStore5 5 0 0 = [barEx] := by
  constructor
  · intro store w di df o ho
    unfold buscar_dados at ho
    by_cases he : (lerDias store di df).isEmpty
    · rw [if_pos he] at ho
      cases ho
    · rw [if_neg he] at ho
      obtain ⟨hd, tl, hfil, hagg⟩ :=
        mem_resample w (mergedSeries store di df)
          (mergedSeries_sorted store di df) o ho
      refine ⟨hd, tl, hfil, ?_, ?_, ?_, ?_, ?_⟩
      · rw [hagg]
        rfl
      · rw [hagg]
        simp only [aggregate]
        exact foldl_rmax_eq _ _
      · rw [hagg]
        simp only [aggregate]
        exact foldl_rmin_eq _ _
      · rw [hagg]
        rfl
      · rw [hagg]
        simp only [aggregate, List.map_cons, List.sum_cons]
  · norm_num [buscar_dados, lerDias, diasNoPeriodo, mergedSeries,
      removeDuplicatas, dedupFirst, resample, groupRuns, aggregate,
      bucketStart, originOf, minutosPorDia, rmax, rmin,
      List.insertionSort, List.orderedInsert, tsLe, List.range',
      exampleStore5, barEx, List.filterMap, List.isEmpty]

/-- C1 instance: the general bucket law applied to the specification's
5-minute example, at the single output bucket `barEx`. -/
theorem composicao_ohlcv_aplicacao :
    ∃ hd tl,
      (mergedSeries exampleStore5 0 0).filter
        (fun x => bucketStart (originOf (mergedSeries exampleStore5 0 0)) 5
          x.Datetime == barEx.Datetime) = hd :: tl ∧
      barEx.Open = hd.Open ∧
      barEx.High = (tl.map (·.High)).foldl max hd.High ∧
      barEx.Low = (tl.map (·.Low)).foldl min hd.Low ∧
      barEx.Close = (tl.getLastD hd).Close ∧
      barEx.Volume = ((hd :: tl).map (·.Volume)).sum := by
  refine composicao_ohlcv.1 exampleStore5 5 0 0 barEx ?_
  rw [composicao_ohlcv.2]
  exact List.mem_cons_self _ _

/-- C2: the merged minute series concatenates the per-day reads, drops
every duplicate timestamp except its first occurrence (earlier-loaded
day wins) and sorts ascending; consequently, whenever the concatenated
reads carry `b1` as the first-seen bar at timestamp `ts`, the merged
series — and the 1-minute query output — contains exactly one bar at
`ts`, namely `b1`. -/
theorem mesclagem_primeiro_vence (store : Nat → DayRead) (di df ts : Nat)
    (b1 : Bar) (rest : List Bar)
    (h : ((lerDias store di df).flatten).filter
      (fun b => b.Datetime == ts) = b1 :: rest) :
    (mergedSeries store di df).filter (fun b => b.Datetime == ts) = [b1] ∧
      (buscar_dados store 1 di df).filter (fun b => b.Datetime == ts) =
        [b1] := by
  have hdedup : (removeDuplicatas (lerDias store di df).flatten).filter
      (fun b => b.Datetime == ts) = [b1] := by
    unfold removeDuplicatas
    rw [filter_dedupFirst, if_neg (List.not_mem_nil ts), h]
    rfl
  have hmerged : (mergedSeries store di df).filter
      (fun b => b.Datetime == ts) = [b1] := by
    have hperm : List.Perm
        ((mergedSeries store di df).filter (fun b => b.Datetime == ts))
        ((removeDuplicatas (lerDias store di df).flatten).filter
          (fun b => b.Datetime == ts)) :=
      (List.perm_insertionSort tsLe _).filter _
    rw [hdedup] at hperm
    exact List.perm_singleton.mp hperm
  refine ⟨hmerged, ?_⟩
  have hne : ¬(lerDias store di df).isEmpty = true := by
    intro he
    have hnil : lerDias store di df = [] := by
      simpa [List.isEmpty_iff] using he
    rw [hnil] at h
    simp at h
  unfold buscar_dados
  rw [if_neg hne, resample_one _ (mergedSeries_sorted store di df)
    (mergedSeries_nodup store di df)]
  exact hmerged

/-- C2 instance: two overlapping Day Stores (days 10 and 11) share
timestamp 14400 with different values; the query keeps exactly the
earlier-loaded store's bar. -/
theorem mesclagem_primeiro_vence_aplicacao :
    (buscar_dados stC2 1 10 11).filter (fun b => b.Datetime == 14400) =
      [⟨14400, 5, 5, 5, 5, 50⟩] :=
  (mesclagem_primeiro_vence stC2 10 11 14400 ⟨14400, 5, 5, 5, 5, 50⟩
    [⟨14400, 7, 7, 7, 7, 70⟩] rfl).2

/-- C4, counterexample: with timeframe 7 (which does not divide a day)
the bucket that the bar at minute 1440 falls into depends on the
queried range: querying only day 1 labels its bucket 1440, while
querying days 0-1 labels it 1435, because pandas anchors buckets at the
first row's midnight (`origin='start_day'`), not at a fixed epoch.  Both
ranges contain the bar's day, refuting the claimed range-independence. -/
theorem alinhamento_balde_contraexemplo :
    (buscar_dados stC4 7 1 1).map (·.Datetime) = [1440] ∧
      (buscar_dados stC4 7 0 1).map (·.Datetime) = [0, 1435] := by
  constructor <;> rfl

/-- C4, amended: two queries whose ranges read the same per-day stores
produce identical output for every timeframe; and for every timeframe
width dividing a day (all documented values: minutes such as 5 or 30,
and daily 1440) the bucket of a bar depends only on the bar's timestamp
and the width — `w * (ts / w)`, the epoch-aligned left edge — regardless
of the queried range. -/
theorem alinhamento_epoca_divisor :
    (∀ (store : Nat → DayRead) (w di1 df1 di2 df2 : Nat),
      lerDias store di1 df1 = lerDias store di2 df2 →
      buscar_dados store w di1 df1 = buscar_dados store w di2 df2) ∧
    (∀ (store : Nat → DayRead) (w di df : Nat), 0 < w →
      w ∣ minutosPorDia →
      ∀ b ∈ mergedSeries store di df,
        bucketStart (originOf (mergedSeries store di df)) w b.Datetime =
          w * (b.Datetime / w)) := by
  constructor
  · intro store w di1 df1 di2 df2 h
    unfold buscar_dados mergedSeries
    rw [h]
  · intro store w di df hw hdvd b hb
    cases hs : mergedSeries store di df with
    | nil => rw [hs] at hb; cases hb
    | cons hd rest =>
      rw [hs] at hb
      have hsorted := mergedSeries_sorted store di df
      rw [hs] at hsorted
      have hhd : hd.Datetime ≤ b.Datetime := by
        rcases List.mem_cons.mp hb with rfl | hb2
        · exact Nat.le_refl _
        · exact List.rel_of_sorted_cons hsorted b hb2
      have horig : originOf (hd :: rest) ≤ b.Datetime :=
        Nat.le_trans (Nat.mul_div_le hd.Datetime minutosPorDia) hhd
      exact bucketStart_of_dvd _ _ _ hw (hdvd.mul_right _) horig

/-- C4 instance: for the 5-minute timeframe (5 divides 1440) the bar at
minute 1440 of `stC4`, queried over days 0-1, is assigned the
epoch-aligned bucket `5 * (1440 / 5)`. -/
theorem alinhamento_epoca_divisor_aplicacao :
    bucketStart (originOf (mergedSeries stC4 0 1)) 5
      (Bar.Datetime ⟨1440, 1, 1, 1, 1, 1⟩) =
      5 * (Bar.Datetime ⟨1440, 1, 1, 1, 1, 1⟩ / 5) :=
  alinhamento_epoca_divisor.2 stC4 5 0 1 (by norm_num)
    (by norm_num [minutosPorDia]) ⟨1440, 1, 1, 1, 1, 1⟩
    (by rw [show mergedSeries stC4 0 1 =
        [⟨0, 1, 1, 1, 1, 1⟩, ⟨1440, 1, 1, 1, 1, 1⟩] from rfl]
        exact List.mem_cons_of_mem _ (List.mem_cons_self _ _))

/-- C8: a query over a range in which no day has a populated (non-empty,
readable) Day Store returns the empty result, for every timeframe — no
error is raised. -/
theorem consulta_sem_dados_vazia (store : Nat → DayRead) (w di df : Nat)
    (h : ∀ d, di ≤ d → d ≤ df → ∀ bars, store d = DayRead.ok bars →
      bars = []) :
    buscar_dados store w di df = [] := by
  have hflat : (lerDias store di df).flatten = [] := by
    rw [List.flatten_eq_nil_iff]
    intro bs hbs
    rcases List.mem_filterMap.mp hbs with ⟨d, hd, hmatch⟩
    simp only [diasNoPeriodo] at hd
    have hrange := List.mem_range'_1.mp hd
    cases hst : store d with
    | ok bars =>
      simp only [hst, Option.some.injEq] at hmatch
      subst hmatch
      exact h d hrange.1 (by omega) _ hst
    | missing => simp [hst] at hmatch
    | corrupt => simp [hst] at hmatch
  have hmerged : mergedSeries store di df = [] := by
    unfold mergedSeries removeDuplicatas
    rw [hflat]
    rfl
  unfold buscar_dados
  by_cases he : (lerDias store di df).isEmpty
  · rw [if_pos he]
  · rw [if_neg he, hmerged]
    rfl

/-- C8 instance: four days with no store files at all, timeframe 5. -/
theorem consulta_sem_dados_vazia_aplicacao :
    buscar_dados (fun _ => DayRead.missing) 5 0 3 = [] :=
  consulta_sem_dados_vazia (fun _ => DayRead.missing) 5 0 3
    (fun _ _ _ _ hb => by cases hb)

/-- C9: an unreadable (corrupt) store file behaves exactly as a missing
one: with two stores identical except that one has day `c` corrupt and
the other has it absent, both the read phase and the whole query agree —
the failing day contributes nothing while every other day still
contributes, and the query never aborts. -/
theorem falha_leitura_isolada (s1 s2 : Nat → DayRead) (c w di df : Nat)
    (hc1 : s1 c = DayRead.corrupt) (hc2 : s2 c = DayRead.missing)
    (hother : ∀ d, d ≠ c → s1 d = s2 d) :
    lerDias s1 di df = lerDias s2 di df ∧
      buscar_dados s1 w di df = buscar_dados s2 w di df := by
  have hread : lerDias s1 di df = lerDias s2 di df := by
    unfold lerDias
    apply List.filterMap_congr
    intro d _
    by_cases hdc : d = c
    · subst hdc
      rw [hc1, hc2]
    · rw [hother d hdc]
  exact ⟨hread, by unfold buscar_dados mergedSeries; rw [hread]⟩

/-- C9 instance: day 1 corrupt versus day 1 missing, days 0 and 2
populated: the reads and the 30-minute query coincide. -/
theorem falha_leitura_isolada_aplicacao :
    lerDias stC9corrupt 0 2 = lerDias stC9missing 0 2 ∧
      buscar_dados stC9corrupt 30 0 2 = buscar_dados stC9missing 30 0 2 :=
  falha_leitura_isolada stC9corrupt stC9missing 1 30 0 2 rfl rfl
    (fun d hd => by
      unfold stC9corrupt stC9missing
      by_cases h0 : d = 0
      · simp [h0]
      · simp [h0, hd])

end FinanceDAL
